import Mathlib

/-
Verification of the yt-builder timeline assembly core.

This file gives a shallow embedding, in Lean, of the pure timeline logic of
the yt-builder pipeline:

  * the duration-fitting step of VideoProcessor.process_videos
    (src/video_processor.py, lines 70 to 105) and the identical loop-count
    computation of AudioMixer._create_music_track (src/audio_mixer.py,
    lines 96 to 101);
  * the batched concatenation strategy of
    VideoProcessor._concatenate_in_batches (src/video_processor.py,
    lines 247 to 366);
  * the transition handling of VideoProcessor._concatenate_videos_preprocessed
    and VideoProcessor._build_xfade_command (src/video_processor.py,
    lines 227 to 407);
  * the audio mixing dispatch of AudioMixer.mix_audio and
    AudioMixer._mix_tracks (src/audio_mixer.py, lines 28 to 342);
  * the quote scheduling loop of QuoteRenderer.generate_quote_timings
    (src/quote_renderer.py, lines 252 to 304);
  * the quote parsing of QuoteRenderer._load_quotes and
    QuoteRenderer._parse_quotes_all (src/quote_renderer.py, lines 29 to 130);
  * the integrity filtering and ordering of VideoProcessor.process_videos
    (src/video_processor.py, lines 36 to 52) together with
    validate_file_integrity (src/validator.py, lines 139 to 159);
  * the configuration value checks of validate_inputs
    (src/validator.py, lines 17 to 58).

Python floats are modelled as rationals, Python ints as Lean integers, and
randomness (random.shuffle, random.uniform) as explicit parameters: a
permutation function for shuffles and a stream of drawn values for uniform
draws.  External ffmpeg/ffprobe invocations are opaque to the logic under
verification; where a claim concerns the command issued, the command is
modelled by the data that distinguishes it (the listed input paths and
whether the invocation re-encodes or stream-copies).
-/

namespace YtBuilder

/-! ### Duration fitting

Embedding of the selection loop of VideoProcessor.process_videos
(src/video_processor.py, lines 70 to 105).  The same loop-count formula
appears in AudioMixer._create_music_track (src/audio_mixer.py, lines 96
to 101). -/

/-- Python int() conversion on a rational: truncation toward zero. -/
def pyInt (q : ℚ) : ℤ := if 0 ≤ q then ⌊q⌋ else ⌈q⌉

/-- Loop count from the source: `int(self.config.duration / total_duration) + 1`
(video_processor.py line 72 and audio_mixer.py line 97). -/
def loopsNeeded (T total : ℚ) : ℕ := (pyInt (T / total) + 1).toNat

/-- Python list replication `lst * n` (video_processor.py lines 75 to 76,
audio_mixer.py line 99): n copies of the list, in order. -/
def pyListMul (l : List α) (n : ℕ) : List α := (List.replicate n l).flatten

/-- Embedding of the selection loop (video_processor.py lines 82 to 91):
walk the (video, duration) pairs, breaking as soon as the accumulated
time reaches the target `T`; returns the selected pairs and the final
accumulated time. -/
def fitSelect (T : ℚ) : List (α × ℚ) → ℚ → List (α × ℚ) × ℚ
  | [], acc => ([], acc)
  | (v, d) :: rest, acc =>
    if T ≤ acc then ([], acc)
    else
      let r := fitSelect T rest (acc + d)
      ((v, d) :: r.1, r.2)

/-- Embedding of video_processor.py lines 70 to 91: replicate the
(already ordered) video list and its duration list when the total
duration falls short of the target, then run the selection loop on the
zipped pairs starting from accumulated time 0. -/
def processSelect (vids : List α) (durs : List ℚ) (T : ℚ) : List (α × ℚ) × ℚ :=
  let total := durs.sum
  let finalVideos := if total < T then pyListMul vids (loopsNeeded T total) else vids
  let finalDurations := if total < T then pyListMul durs (loopsNeeded T total) else durs
  fitSelect T (finalVideos.zip finalDurations) 0

/-! Lemmas about the selection loop. -/

theorem fitSelect_acc (T : ℚ) (l : List (α × ℚ)) (acc : ℚ) :
    (fitSelect T l acc).2 = acc + ((fitSelect T l acc).1.map Prod.snd).sum := by
  induction l generalizing acc with
  | nil => simp [fitSelect]
  | cons p rest ih =>
    obtain ⟨v, d⟩ := p
    by_cases h : T ≤ acc
    · simp [fitSelect, h]
    · simp only [fitSelect, h, if_false, if_neg h, List.map_cons, List.sum_cons]
      rw [ih (acc + d)]
      ring

theorem fitSelect_ge (T : ℚ) (l : List (α × ℚ)) (acc : ℚ)
    (h : T ≤ acc + (l.map Prod.snd).sum) : T ≤ (fitSelect T l acc).2 := by
  induction l generalizing acc with
  | nil => simpa [fitSelect] using h
  | cons p rest ih =>
    obtain ⟨v, d⟩ := p
    by_cases hb : T ≤ acc
    · simp [fitSelect, hb]
    · simp only [fitSelect, if_neg hb]
      exact ih (acc + d) (by simp only [List.map_cons, List.sum_cons] at h; linarith)

theorem fitSelect_ne_nil (T : ℚ) (l : List (α × ℚ)) (acc : ℚ)
    (hacc : acc < T) (hl : l ≠ []) : (fitSelect T l acc).1 ≠ [] := by
  cases l with
  | nil => exact absurd rfl hl
  | cons p rest =>
    obtain ⟨v, d⟩ := p
    simp [fitSelect, not_le.mpr hacc]

theorem fitSelect_mem (T : ℚ) (l : List (α × ℚ)) (acc : ℚ) (p : α × ℚ)
    (hp : p ∈ (fitSelect T l acc).1) : p ∈ l := by
  induction l generalizing acc with
  | nil => simp [fitSelect] at hp
  | cons q rest ih =>
    obtain ⟨v, d⟩ := q
    by_cases hb : T ≤ acc
    · simp [fitSelect, hb] at hp
    · simp only [fitSelect, if_neg hb, List.mem_cons] at hp
      rcases hp with h | h
      · exact h ▸ List.mem_cons_self _ _
      · exact List.mem_cons_of_mem _ (ih (acc + d) h)

theorem fitSelect_last (T : ℚ) (l : List (α × ℚ)) (acc : ℚ) (hacc : acc < T)
    (hne : (fitSelect T l acc).1 ≠ []) :
    ∃ p, (fitSelect T l acc).1.getLast? = some p ∧ (fitSelect T l acc).2 - T < p.2 := by
  induction l generalizing acc with
  | nil => simp [fitSelect] at hne
  | cons q rest ih =>
    obtain ⟨v, d⟩ := q
    have hb : ¬ T ≤ acc := not_le.mpr hacc
    by_cases hr : (fitSelect T rest (acc + d)).1 = []
    · have h2 : (fitSelect T rest (acc + d)).2 = acc + d := by
        rw [fitSelect_acc]; simp [hr]
      refine ⟨(v, d), ?_, ?_⟩
      · simp [fitSelect, if_neg hb, hr]
      · simp only [fitSelect, if_neg hb, h2]
        linarith
    · by_cases hacc2 : acc + d < T
      · obtain ⟨p, hp1, hp2⟩ := ih (acc + d) hacc2 hr
        obtain ⟨q0, qs, hql⟩ : ∃ q0 qs, (fitSelect T rest (acc + d)).1 = q0 :: qs := by
          cases hc : (fitSelect T rest (acc + d)).1 with
          | nil => exact absurd hc hr
          | cons q0 qs => exact ⟨q0, qs, rfl⟩
        refine ⟨p, ?_, ?_⟩
        · simp only [fitSelect, if_neg hb]
          rw [hql, List.getLast?_cons_cons, ← hql, hp1]
        · simpa only [fitSelect, if_neg hb] using hp2
      · exfalso
        apply hr
        cases rest with
        | nil => simp [fitSelect]
        | cons q2 rs =>
          obtain ⟨v2, d2⟩ := q2
          simp [fitSelect, not_lt.mp hacc2]

/-! Lemmas about Python list replication. -/

theorem pyListMul_sum (l : List ℚ) (n : ℕ) : (pyListMul l n).sum = n * l.sum := by
  induction n with
  | zero => simp [pyListMul]
  | succ k ih =>
    simp only [pyListMul, List.replicate_succ, List.flatten_cons, List.sum_append] at ih ⊢
    rw [ih]
    push_cast
    ring

theorem pyListMul_mem (l : List α) (n : ℕ) (a : α) (h : a ∈ pyListMul l n) : a ∈ l := by
  simp only [pyListMul, List.mem_flatten] at h
  obtain ⟨m, hm, ha⟩ := h
  rw [List.eq_of_mem_replicate hm] at ha
  exact ha

theorem pyListMul_length (l : List α) (n : ℕ) : (pyListMul l n).length = n * l.length := by
  induction n with
  | zero => simp [pyListMul]
  | succ k ih =>
    simp only [pyListMul, List.replicate_succ, List.flatten_cons, List.length_append] at ih ⊢
    rw [ih]
    ring

theorem pyListMul_zip (a : List α) (b : List β) (h : a.length = b.length) (n : ℕ) :
    (pyListMul a n).zip (pyListMul b n) = pyListMul (a.zip b) n := by
  induction n with
  | zero => simp [pyListMul]
  | succ k ih =>
    simp only [pyListMul, List.replicate_succ, List.flatten_cons] at ih ⊢
    rw [List.zip_append h, ih]

theorem loopsNeeded_pos (T total : ℚ) (h0 : 0 < total) (hlt : total < T) :
    1 ≤ loopsNeeded T total := by
  have hq : (0 : ℚ) < T / total := div_pos (lt_trans h0 hlt) h0
  have hp : pyInt (T / total) = ⌊T / total⌋ := by simp [pyInt, hq.le]
  have hf : 0 ≤ ⌊T / total⌋ := Int.floor_nonneg.mpr hq.le
  simp only [loopsNeeded, hp]
  omega

theorem loopsNeeded_mul_gt (T total : ℚ) (h0 : 0 < total) (hlt : total < T) :
    T < (loopsNeeded T total : ℚ) * total := by
  have hq : (0 : ℚ) < T / total := div_pos (lt_trans h0 hlt) h0
  have hp : pyInt (T / total) = ⌊T / total⌋ := by simp [pyInt, hq.le]
  have hf : 0 ≤ ⌊T / total⌋ := Int.floor_nonneg.mpr hq.le
  have ht : ((⌊T / total⌋ + 1).toNat : ℤ) = ⌊T / total⌋ + 1 :=
    Int.toNat_of_nonneg (by omega)
  have hcast : ((loopsNeeded T total : ℕ) : ℚ) = (⌊T / total⌋ : ℚ) + 1 := by
    simp only [loopsNeeded, hp]
    exact_mod_cast ht
  have hlt2 : T / total < (⌊T / total⌋ : ℚ) + 1 := Int.lt_floor_add_one _
  rw [div_lt_iff₀ h0] at hlt2
  rw [hcast]
  linarith

theorem fitSelect_bounds {α : Type} (fv : List α) (fd : List ℚ) (T m : ℚ)
    (hlen : fv.length = fd.length) (hge : T ≤ fd.sum) (hT : 0 < T)
    (hub : ∀ d ∈ fd, d ≤ m) :
    T ≤ (fitSelect T (fv.zip fd) 0).2 ∧
    (fitSelect T (fv.zip fd) 0).2 < T + m ∧
    ((fitSelect T (fv.zip fd) 0).1.map Prod.snd).sum = (fitSelect T (fv.zip fd) 0).2 ∧
    ∃ p, (fitSelect T (fv.zip fd) 0).1.getLast? = some p ∧ p.2 ∈ fd ∧
      (fitSelect T (fv.zip fd) 0).2 - T < p.2 := by
  have hsnd : (fv.zip fd).map Prod.snd = fd := List.map_snd_zip fv fd (le_of_eq hlen.symm)
  have hzne : fv.zip fd ≠ [] := by
    intro hcon
    have h0 : fd = [] := by
      have := congrArg List.length hcon
      simp only [List.length_zip, List.length_nil, ← hlen, Nat.min_self] at this
      exact List.length_eq_zero.mp (by omega)
    rw [h0] at hge
    simp at hge
    linarith
  have h1 : T ≤ (fitSelect T (fv.zip fd) 0).2 :=
    fitSelect_ge T (fv.zip fd) 0 (by rw [hsnd]; linarith)
  have hne : (fitSelect T (fv.zip fd) 0).1 ≠ [] := fitSelect_ne_nil T (fv.zip fd) 0 hT hzne
  obtain ⟨p, hp1, hp2⟩ := fitSelect_last T (fv.zip fd) 0 hT hne
  have hpmem : p ∈ (fitSelect T (fv.zip fd) 0).1 := List.mem_of_mem_getLast? hp1
  have hpitems : p ∈ fv.zip fd := fitSelect_mem T (fv.zip fd) 0 p hpmem
  have hpfd : p.2 ∈ fd := by
    obtain ⟨a, b⟩ := p
    exact (List.of_mem_zip hpitems).2
  refine ⟨h1, ?_, ?_, p, hp1, hpfd, hp2⟩
  · have := hub p.2 hpfd
    linarith
  · have := fitSelect_acc T (fv.zip fd) 0
    linarith

/-- Claim C1: for every duration list with positive sum and positive target
duration T, the selection produced by the duration-fitting loop of
process_videos (after optional replication) accumulates a total duration
that is at least T and less than T plus any upper bound of the single-item
durations, and the trim amount (accumulated minus T) lies in the interval
from 0 (inclusive) to the duration of the last selected item (exclusive). -/
theorem c1_duration_fit_bounds {α : Type} (vids : List α) (durs : List ℚ) (T m : ℚ)
    (hlen : vids.length = durs.length)
    (hsum : 0 < durs.sum) (hT : 0 < T)
    (hub : ∀ d ∈ durs, d ≤ m) :
    T ≤ (processSelect vids durs T).2 ∧
    (processSelect vids durs T).2 < T + m ∧
    0 ≤ (processSelect vids durs T).2 - T ∧
    ((processSelect vids durs T).1.map Prod.snd).sum = (processSelect vids durs T).2 ∧
    ∃ p, (processSelect vids durs T).1.getLast? = some p ∧
      p.2 ∈ durs ∧ (processSelect vids durs T).2 - T < p.2 := by
  by_cases hc : durs.sum < T
  · have hmain := fitSelect_bounds (pyListMul vids (loopsNeeded T durs.sum))
      (pyListMul durs (loopsNeeded T durs.sum)) T m
      (by rw [pyListMul_length, pyListMul_length, hlen])
      (by rw [pyListMul_sum]
          exact le_of_lt (loopsNeeded_mul_gt T durs.sum hsum hc))
      hT
      (fun d hd => hub d (pyListMul_mem durs _ d hd))
    simp only [processSelect, if_pos hc]
    obtain ⟨a1, a2, a3, p, b1, b2, b3⟩ := hmain
    exact ⟨a1, a2, by linarith, a3, p, b1, pyListMul_mem durs _ p.2 b2, b3⟩
  · have hmain := fitSelect_bounds vids durs T m hlen (not_lt.mp hc) hT hub
    simp only [processSelect, if_neg hc]
    obtain ⟨a1, a2, a3, p, b1, b2, b3⟩ := hmain
    exact ⟨a1, a2, by linarith, a3, p, b1, b2, b3⟩

/-- Witness for C1 at the concrete scenario with one 30-second clip and
target 100 seconds. -/
theorem c1_witness :
    ([(0 : ℕ)].length = [(30 : ℚ)].length ∧ 0 < [(30 : ℚ)].sum ∧ (0 : ℚ) < 100 ∧
      ∀ d ∈ [(30 : ℚ)], d ≤ 30) ∧
    (100 ≤ (processSelect [(0 : ℕ)] [(30 : ℚ)] 100).2 ∧
      (processSelect [(0 : ℕ)] [(30 : ℚ)] 100).2 < 100 + 30 ∧
      0 ≤ (processSelect [(0 : ℕ)] [(30 : ℚ)] 100).2 - 100 ∧
      ((processSelect [(0 : ℕ)] [(30 : ℚ)] 100).1.map Prod.snd).sum =
        (processSelect [(0 : ℕ)] [(30 : ℚ)] 100).2 ∧
      ∃ p, (processSelect [(0 : ℕ)] [(30 : ℚ)] 100).1.getLast? = some p ∧
        p.2 ∈ [(30 : ℚ)] ∧ (processSelect [(0 : ℕ)] [(30 : ℚ)] 100).2 - 100 < p.2) :=
  ⟨⟨rfl, by norm_num, by norm_num, by norm_num⟩,
    c1_duration_fit_bounds [(0 : ℕ)] [(30 : ℚ)] 100 30 rfl (by norm_num) (by norm_num)
      (by norm_num)⟩

/-- Claim C2: when the total duration falls short of the target T, the loop
count equals floor(T / total) + 1 and the list is replicated that many
times preserving relative order within each replica; in the concrete
scenario T = 100 with a single 30-second item the loop count is 4, exactly
4 items are selected, and the trim amount is 20 seconds. -/
theorem c2_loop_replication {α : Type} (vids : List α) (durs : List ℚ) (T : ℚ)
    (h0 : 0 < durs.sum) (hlt : durs.sum < T) :
    (loopsNeeded T durs.sum : ℤ) = ⌊T / durs.sum⌋ + 1 ∧
    (∃ reps : List (List α), reps.length = loopsNeeded T durs.sum ∧
      (∀ r ∈ reps, r = vids) ∧
      (if durs.sum < T then pyListMul vids (loopsNeeded T durs.sum) else vids) =
        reps.flatten) ∧
    loopsNeeded 100 30 = 4 ∧
    (processSelect [(0 : ℕ)] [(30 : ℚ)] 100).1.length = 4 ∧
    (processSelect [(0 : ℕ)] [(30 : ℚ)] 100).2 - 100 = 20 := by
  refine ⟨?_, ⟨List.replicate (loopsNeeded T durs.sum) vids, ?_, ?_, ?_⟩, ?_, ?_, ?_⟩
  · have hq : (0 : ℚ) < T / durs.sum := div_pos (lt_trans h0 hlt) h0
    have hp : pyInt (T / durs.sum) = ⌊T / durs.sum⌋ := by simp [pyInt, hq.le]
    have hf : 0 ≤ ⌊T / durs.sum⌋ := Int.floor_nonneg.mpr hq.le
    simp only [loopsNeeded, hp]
    omega
  · exact List.length_replicate _ _
  · exact fun r hr => List.eq_of_mem_replicate hr
  · simp [pyListMul, hlt]
  · norm_num [loopsNeeded, pyInt]
    rfl
  · norm_num [processSelect, pyListMul, loopsNeeded, pyInt, List.replicate, fitSelect]
  · norm_num [processSelect, pyListMul, loopsNeeded, pyInt, List.replicate, fitSelect]

/-- Witness for C2 at the concrete scenario of the claim. -/
theorem c2_witness :
    (0 < [(30 : ℚ)].sum ∧ [(30 : ℚ)].sum < 100) ∧
    ((loopsNeeded 100 [(30 : ℚ)].sum : ℤ) = ⌊(100 : ℚ) / [(30 : ℚ)].sum⌋ + 1 ∧
      (∃ reps : List (List ℕ), reps.length = loopsNeeded 100 [(30 : ℚ)].sum ∧
        (∀ r ∈ reps, r = [0]) ∧
        (if [(30 : ℚ)].sum < 100 then pyListMul [0] (loopsNeeded 100 [(30 : ℚ)].sum)
          else [0]) = reps.flatten) ∧
      loopsNeeded 100 30 = 4 ∧
      (processSelect [(0 : ℕ)] [(30 : ℚ)] 100).1.length = 4 ∧
      (processSelect [(0 : ℕ)] [(30 : ℚ)] 100).2 - 100 = 20) :=
  ⟨⟨by norm_num, by norm_num⟩,
    c2_loop_replication [(0 : ℕ)] [(30 : ℚ)] 100 (by norm_num) (by norm_num)⟩

/-! ### Batched concatenation

Embedding of VideoProcessor._concatenate_in_batches (src/video_processor.py,
lines 247 to 366).  The number of batches is `(num_videos + batch_size - 1)
// batch_size` (line 259) and batch i is the slice
`processed_videos[i * batch_size : min((i + 1) * batch_size, num_videos)]`
(lines 266 to 268). -/

/-- Number of batches, from video_processor.py line 259. -/
def numBatches (n B : ℕ) : ℕ := (n + B - 1) / B

/-- Batch slices, from video_processor.py lines 265 to 268: batch i is the
Python slice from i * B to min((i + 1) * B, length). -/
def batchSlices (xs : List α) (B : ℕ) : List (List α) :=
  (List.range (numBatches xs.length B)).map
    (fun i => (xs.drop (i * B)).take (min ((i + 1) * B) xs.length - i * B))

theorem numBatches_zero (B : ℕ) (hB : 0 < B) : numBatches 0 B = 0 := by
  simp only [numBatches, Nat.zero_add]
  exact Nat.div_eq_of_lt (by omega)

theorem numBatches_succ (n B : ℕ) (hB : 0 < B) (hn : 0 < n) :
    numBatches n B = numBatches (n - B) B + 1 := by
  rcases le_or_lt n B with h | h
  · have h1 : n - B = 0 := by omega
    have h2 : (n + B - 1) / B = 1 := Nat.div_eq_of_lt_le (by omega) (by omega)
    have h3 : (B - 1) / B = 0 := Nat.div_eq_of_lt (by omega)
    simp [numBatches, h1, h2, h3]
  · have e1 : n + B - 1 = (n - 1) + B := by omega
    have e2 : (n - B) + B - 1 = (n - B - 1) + B := by omega
    have e3 : n - 1 = (n - B - 1) + B := by omega
    simp only [numBatches, e1, e2, e3, Nat.add_div_right _ hB]

theorem batchSlices_nil (B : ℕ) (hB : 0 < B) : batchSlices ([] : List α) B = [] := by
  simp [batchSlices, numBatches_zero B hB]

theorem batchSlices_eq_cons (xs : List α) (B : ℕ) (hB : 0 < B) (hx : xs ≠ []) :
    batchSlices xs B = xs.take B :: batchSlices (xs.drop B) B := by
  have hlen : 0 < xs.length := List.length_pos.mpr hx
  simp only [batchSlices, List.length_drop]
  rw [show numBatches xs.length B = numBatches (xs.length - B) B + 1 from
    numBatches_succ _ _ hB hlen]
  rw [List.range_succ_eq_map]
  simp only [List.map_cons, List.map_map]
  refine congrArg₂ _ ?_ ?_
  · simp only [Nat.zero_mul, List.drop_zero, Nat.sub_zero, Nat.zero_add, Nat.one_mul]
    rcases le_total B xs.length with h | h
    · rw [min_eq_left h]
    · rw [min_eq_right h, List.take_of_length_le le_rfl, List.take_of_length_le h]
  · refine List.map_congr_left (fun i _ => ?_)
    simp only [Function.comp_apply, Nat.succ_eq_add_one]
    rw [List.drop_drop]
    have e1 : B + i * B = (i + 1) * B := by ring
    rw [e1]
    refine congrArg (fun t => List.take t (xs.drop ((i + 1) * B))) ?_
    have e2 : (i + 1 + 1) * B = i * B + B + B := by ring
    have e3 : (i + 1) * B = i * B + B := by ring
    rw [e2, e3]
    generalize i * B = a
    omega

theorem batchSlices_flatten {α : Type} (B : ℕ) (hB : 0 < B) (xs : List α) :
    (batchSlices xs B).flatten = xs := by
  have H : ∀ n (ys : List α), ys.length ≤ n → (batchSlices ys B).flatten = ys := by
    intro n
    induction n with
    | zero =>
      intro ys h
      have hy : ys = [] := List.length_eq_zero.mp (by omega)
      subst hy
      simp [batchSlices_nil B hB]
    | succ k ih =>
      intro ys h
      by_cases hy : ys = []
      · subst hy
        simp [batchSlices_nil B hB]
      · rw [batchSlices_eq_cons ys B hB hy]
        simp only [List.flatten_cons]
        rw [ih (ys.drop B) (by
          have : 0 < ys.length := List.length_pos.mpr hy
          simp only [List.length_drop]
          omega)]
        exact List.take_append_drop B ys
  exact H xs.length xs le_rfl

theorem batchSlices_length (xs : List α) (B : ℕ) :
    (batchSlices xs B).length = numBatches xs.length B := by
  simp [batchSlices]

theorem batchSlices_size_le {α : Type} (B : ℕ) (xs : List α) :
    ∀ b ∈ batchSlices xs B, b.length ≤ B := by
  intro b hb
  simp only [batchSlices, List.mem_map, List.mem_range] at hb
  obtain ⟨i, _, rfl⟩ := hb
  calc ((xs.drop (i * B)).take (min ((i + 1) * B) xs.length - i * B)).length
      ≤ min ((i + 1) * B) xs.length - i * B := by
        simpa using List.length_take_le _ _
    _ ≤ B := by
        have e : (i + 1) * B = i * B + B := by ring
        omega

theorem batchSlices_dropLast {α : Type} (B : ℕ) (hB : 0 < B) (xs : List α) :
    ∀ b ∈ (batchSlices xs B).dropLast, b.length = B := by
  have H : ∀ n (ys : List α), ys.length ≤ n →
      ∀ b ∈ (batchSlices ys B).dropLast, b.length = B := by
    intro n
    induction n with
    | zero =>
      intro ys h b hb
      have hy : ys = [] := List.length_eq_zero.mp (by omega)
      subst hy
      simp [batchSlices_nil B hB] at hb
    | succ k ih =>
      intro ys h b hb
      by_cases hy : ys = []
      · subst hy
        simp [batchSlices_nil B hB] at hb
      · rw [batchSlices_eq_cons ys B hB hy] at hb
        by_cases hd : ys.drop B = []
        · rw [hd, batchSlices_nil B hB] at hb
          simp at hb
        · have hrest : batchSlices (ys.drop B) B ≠ [] := by
            rw [batchSlices_eq_cons (ys.drop B) B hB hd]
            exact List.cons_ne_nil _ _
          obtain ⟨r, rs, hr⟩ : ∃ r rs, batchSlices (ys.drop B) B = r :: rs := by
            cases hc : batchSlices (ys.drop B) B with
            | nil => exact absurd hc hrest
            | cons r rs => exact ⟨r, rs, rfl⟩
          rw [hr, List.dropLast_cons₂, List.mem_cons] at hb
          rcases hb with hb | hb
          · subst hb
            have hlen : B ≤ ys.length := by
              by_contra hcon
              exact hd (List.drop_eq_nil_of_le (by omega))
            simp [List.length_take, min_eq_left hlen]
          · refine ih (ys.drop B) ?_ b ?_
            · have : 0 < ys.length := List.length_pos.mpr hy
              simp only [List.length_drop]
              omega
            · rw [hr]
              exact hb
  exact H xs.length xs le_rfl

/-! ### Concatenation commands and transitions

Embedding of the ffmpeg concat invocations of
VideoProcessor._concatenate_videos_preprocessed (lines 227 to 245),
VideoProcessor._concatenate_in_batches (lines 295 to 317 and 355 to 365)
and VideoProcessor._build_xfade_command (lines 368 to 407).  A command is
modelled by the list of input paths written to its concat manifest file
and by whether it re-encodes (libx264) or stream-copies (codec copy). -/

structure ConcatCmd where
  manifest : List String
  reencode : Bool
deriving DecidableEq

/-- Embedding of VideoProcessor._build_xfade_command (lines 368 to 407):
despite its name and the transition_type argument, the built command is a
plain re-encoded concatenation of the inputs; transition_type is never
used. -/
def build_xfade_command (videoPaths : List String) (transitionType : String) : ConcatCmd :=
  { manifest := videoPaths, reencode := true }

/-- Embedding of the command dispatch of
VideoProcessor._concatenate_videos_preprocessed (lines 227 to 242):
transition none gives a stream-copy concat; fade calls
_build_xfade_command with type fade; anything else (crossfade) calls it
with type fadeblack. -/
def concat_videos_preprocessed (transition : String) (paths : List String) : ConcatCmd :=
  if transition = "none" then { manifest := paths, reencode := false }
  else if transition = "fade" then build_xfade_command paths "fade"
  else build_xfade_command paths "fadeblack"

/-- Embedding of the per-batch command of _concatenate_in_batches
(lines 295 to 317): stream-copy for transition none, plain re-encode
otherwise. -/
def batch_concat_cmd (transition : String) (batch : List String) : ConcatCmd :=
  if transition = "none" then { manifest := batch, reencode := false }
  else { manifest := batch, reencode := true }

/-- Embedding of the final combination step of _concatenate_in_batches
(lines 332 to 366): with a single batch its output is returned directly
(no further command); otherwise one stream-copy concatenation of all the
batch outputs is issued. -/
def final_batch_concat (batchOutputs : List String) : Option ConcatCmd :=
  if batchOutputs.length = 1 then none
  else some { manifest := batchOutputs, reencode := false }

/-- Claim C4: batched concatenation splits the segment list into
ceil(N / 25) contiguous batches in order (their concatenation restores the
list), each of size at most 25 with only the last possibly smaller; 60
segments yield batches of sizes 25, 25, 10, and the final result is one
stream-copy concatenation of the 3 batch outputs. -/
theorem c4_batching (xs : List ℕ) :
    (batchSlices xs 25).flatten = xs ∧
    (batchSlices xs 25).length = numBatches xs.length 25 ∧
    (xs.length ≤ 25 * numBatches xs.length 25 ∧
      25 * numBatches xs.length 25 < xs.length + 25) ∧
    (∀ b ∈ batchSlices xs 25, b.length ≤ 25) ∧
    (∀ b ∈ (batchSlices xs 25).dropLast, b.length = 25) ∧
    (batchSlices (List.range 60) 25).map List.length = [25, 25, 10] ∧
    final_batch_concat ["batch0", "batch1", "batch2"] =
      some { manifest := ["batch0", "batch1", "batch2"], reencode := false } := by
  refine ⟨batchSlices_flatten 25 (by norm_num) xs, batchSlices_length xs 25, ?_,
    batchSlices_size_le 25 xs, batchSlices_dropLast 25 (by norm_num) xs, ?_, rfl⟩
  · simp only [numBatches]
    omega
  · rfl

/-- Claim C5: the concatenation commands produced under transition fade and
under transition crossfade are identical: a plain re-encoded concatenation
of the inputs, with no cross-blend; the same holds per batch in batch
mode. -/
theorem c5_fade_crossfade_equivalent (paths batch : List String) :
    concat_videos_preprocessed "fade" paths = concat_videos_preprocessed "crossfade" paths ∧
    concat_videos_preprocessed "fade" paths = { manifest := paths, reencode := true } ∧
    batch_concat_cmd "fade" batch = batch_concat_cmd "crossfade" batch :=
  ⟨rfl, rfl, rfl⟩

/-! ### Quote scheduling

Embedding of QuoteRenderer.generate_quote_timings (src/quote_renderer.py,
lines 252 to 304).  The uniform draws of random.uniform(min, max) are
modelled by an explicit stream `draws`: draw 0 is the initial current time
and draw (i + 1) is the interval drawn after emitting window i.  The while
loop is modelled with a fuel parameter bounding the number of iterations;
the scheduling invariants below hold for every fuel value, hence for the
terminating run of the source loop. -/

structure QuoteWindow where
  text : String
  start : ℚ
  endTime : ℚ
  index : ℕ
deriving DecidableEq

/-- Embedding of the while loop of generate_quote_timings (lines 277 to
293): while current + quotesDuration is at most the target T, emit a
window and advance by quotesDuration plus the next drawn interval. -/
def genLoop (quotesDuration T : ℚ) (pool : List String) (draws : ℕ → ℚ) :
    ℕ → ℚ → ℕ → List QuoteWindow
  | 0, _, _ => []
  | fuel + 1, currentTime, quoteIndex =>
    if currentTime + quotesDuration ≤ T then
      { text := pool.getD (quoteIndex % pool.length) "",
        start := currentTime,
        endTime := currentTime + quotesDuration,
        index := quoteIndex } ::
        genLoop quotesDuration T pool draws fuel
          (currentTime + quotesDuration + draws (quoteIndex + 1)) (quoteIndex + 1)
    else []

/-- Embedding of generate_quote_timings (lines 252 to 304): empty pool
gives no timings; otherwise the pool is optionally shuffled and the loop
starts at current time draws 0 with index 0. -/
def generate_quote_timings (quotesDuration T : ℚ) (pool : List String)
    (quotesShuffle : Bool) (shuffle : List String → List String)
    (draws : ℕ → ℚ) (fuel : ℕ) : List QuoteWindow :=
  if pool = [] then []
  else
    genLoop quotesDuration T (if quotesShuffle then shuffle pool else pool) draws fuel
      (draws 0) 0

theorem genLoop_mem (qd T : ℚ) (pool : List String) (draws : ℕ → ℚ)
    (hd : ∀ j, 0 ≤ draws j) (hqd : 0 ≤ qd) :
    ∀ (fuel : ℕ) (current : ℚ) (i : ℕ),
      ∀ w ∈ genLoop qd T pool draws fuel current i,
        current ≤ w.start ∧ w.endTime = w.start + qd ∧ w.endTime ≤ T := by
  intro fuel
  induction fuel with
  | zero =>
    intro current i w hw
    simp [genLoop] at hw
  | succ k ih =>
    intro current i w hw
    by_cases hg : current + qd ≤ T
    · simp only [genLoop, if_pos hg, List.mem_cons] at hw
      rcases hw with h | h
      · subst h
        exact ⟨le_refl _, rfl, hg⟩
      · obtain ⟨h1, h2, h3⟩ := ih _ _ w h
        refine ⟨?_, h2, h3⟩
        have := hd (i + 1)
        linarith
    · simp [genLoop, if_neg hg] at hw

theorem genLoop_chain (qd T : ℚ) (pool : List String) (draws : ℕ → ℚ)
    (hd : ∀ j, 0 ≤ draws j) (hqd : 0 ≤ qd) :
    ∀ (fuel : ℕ) (current : ℚ) (i : ℕ),
      List.Chain' (fun a b => a.endTime ≤ b.start)
        (genLoop qd T pool draws fuel current i) := by
  intro fuel
  induction fuel with
  | zero =>
    intro current i
    simp [genLoop]
  | succ k ih =>
    intro current i
    by_cases hg : current + qd ≤ T
    · simp only [genLoop, if_pos hg]
      rw [List.chain'_cons']
      refine ⟨?_, ih _ _⟩
      intro y hy
      have hym : y ∈ genLoop qd T pool draws k (current + qd + draws (i + 1)) (i + 1) :=
        List.mem_of_mem_head? hy
      have hstart := (genLoop_mem qd T pool draws hd hqd k _ _ y hym).1
      have hdr := hd (i + 1)
      show current + qd ≤ y.start
      linarith
    · simp [genLoop, if_neg hg]

/-- Claim C3: every quote-window sequence generated by
generate_quote_timings, with non-negative minimum interval, minimum at
most maximum, positive quote duration, and every drawn value inside the
configured interval bounds, satisfies: each window spans exactly the quote
duration, consecutive windows do not overlap (each window ends no later
than the next starts), and every window (in particular the last) ends no
later than the target duration T. -/
theorem c3_quote_windows (qd T minB maxB : ℚ) (pool : List String) (qsh : Bool)
    (shuffle : List String → List String) (draws : ℕ → ℚ) (fuel : ℕ)
    (hmin : 0 ≤ minB) (hminmax : minB ≤ maxB) (hqd : 0 < qd)
    (hdraws : ∀ i, minB ≤ draws i ∧ draws i ≤ maxB) :
    (∀ w ∈ generate_quote_timings qd T pool qsh shuffle draws fuel,
      w.endTime - w.start = qd) ∧
    List.Chain' (fun a b => a.endTime ≤ b.start)
      (generate_quote_timings qd T pool qsh shuffle draws fuel) ∧
    (∀ w ∈ generate_quote_timings qd T pool qsh shuffle draws fuel, w.endTime ≤ T) := by
  have hd : ∀ j, 0 ≤ draws j := fun j => le_trans hmin (hdraws j).1
  by_cases hp : pool = []
  · simp [generate_quote_timings, hp]
  · simp only [generate_quote_timings, if_neg hp]
    refine ⟨?_, genLoop_chain qd T _ draws hd hqd.le fuel (draws 0) 0, ?_⟩
    · intro w hw
      have := (genLoop_mem qd T _ draws hd hqd.le fuel (draws 0) 0 w hw).2.1
      linarith
    · intro w hw
      exact (genLoop_mem qd T _ draws hd hqd.le fuel (draws 0) 0 w hw).2.2

/-- Witness for C3 at the concrete scenario quoteDuration 5, minBetween 10,
maxBetween 30, target 60, constant draws of 10. -/
theorem c3_witness :
    ((0 : ℚ) ≤ 10 ∧ (10 : ℚ) ≤ 30 ∧ (0 : ℚ) < 5 ∧
      (∀ i : ℕ, (10 : ℚ) ≤ (fun _ : ℕ => (10 : ℚ)) i ∧ (fun _ : ℕ => (10 : ℚ)) i ≤ 30)) ∧
    ((∀ w ∈ generate_quote_timings 5 60 ["q"] false id (fun _ => 10) 20,
        w.endTime - w.start = 5) ∧
      List.Chain' (fun a b => a.endTime ≤ b.start)
        (generate_quote_timings 5 60 ["q"] false id (fun _ => 10) 20) ∧
      (∀ w ∈ generate_quote_timings 5 60 ["q"] false id (fun _ => 10) 20,
        w.endTime ≤ 60)) :=
  ⟨⟨by norm_num, by norm_num, by norm_num, fun i => ⟨by norm_num, by norm_num⟩⟩,
    c3_quote_windows 5 60 10 30 ["q"] false id (fun _ => 10) 20
      (by norm_num) (by norm_num) (by norm_num) (fun i => ⟨by norm_num, by norm_num⟩)⟩

/-! ### Audio mixing

Embedding of AudioMixer.mix_audio (src/audio_mixer.py, lines 28 to 69) and
AudioMixer._mix_tracks (lines 291 to 342).  The produced audio artifact is
modelled by which ffmpeg invocation yields it: the music track passed
through unchanged, a single-input re-encode with no mixing filter, or an
amix filter over the listed inputs.  The music and sound track
construction steps (_create_music_track, _create_looping_sound) are
abstracted as the functions createMusic and createSound. -/

inductive MixResult where
  | noTrack
  | passthroughMusic (track : String)
  | singleReencode (track : String)
  | amixTracks (tracks : List String)
deriving DecidableEq

/-- Embedding of AudioMixer._mix_tracks (lines 291 to 342): the inputs are
the optional music track followed by the sound tracks; with exactly one
input no mixing filter is applied (a plain re-encode), otherwise all
inputs are combined with an amix filter. -/
def mix_tracks (musicTrack : Option String) (soundTracks : List String) : MixResult :=
  match musicTrack.toList ++ soundTracks with
  | [t] => MixResult.singleReencode t
  | inputs => MixResult.amixTracks inputs

/-- Embedding of AudioMixer.mix_audio (lines 28 to 69): with no valid
music and no valid sounds the result is no track; with both kinds the
music track and the sound tracks are mixed; with only music the music
track is returned directly; with only sounds _mix_tracks is called with
no music track. -/
def mix_audio (createMusic : List String → String) (createSound : String → String)
    (validMusic validSounds : List String) : MixResult :=
  if validMusic = [] ∧ validSounds = [] then MixResult.noTrack
  else if validMusic ≠ [] ∧ validSounds ≠ [] then
    mix_tracks (some (createMusic validMusic)) (validSounds.map createSound)
  else if validMusic ≠ [] then MixResult.passthroughMusic (createMusic validMusic)
  else if validSounds ≠ [] then mix_tracks none (validSounds.map createSound)
  else MixResult.noTrack

/-- Observable of whether the produced artifact went through an amix
mixing filter. -/
def usesAmix : MixResult → Bool
  | MixResult.amixTracks _ => true
  | _ => false

/-- Embedding of the stream mapping of VideoProcessor.combine_all
(src/video_processor.py, lines 469 to 472): with an audio file the video
and audio streams are mapped, without one only the video stream. -/
def combine_all_maps (hasAudio : Bool) : List String :=
  if hasAudio then ["0:v", "1:a"] else ["0:v"]

/-- Counterexample to claim C6 as stated: with no music and two sound
files (only one kind of track), the result does not pass through
unmixed; mix_audio sends the sound tracks through an amix mixing
filter. -/
theorem c6_counterexample :
    usesAmix (mix_audio (fun _ => "music") (fun s => s) [] ["s1", "s2"]) = true ∧
    mix_audio (fun _ => "music") (fun s => s) [] ["s1", "s2"] =
      MixResult.amixTracks ["s1", "s2"] :=
  ⟨rfl, rfl⟩

/-- Claim C6, amended: if only music exists the music track passes through
unmixed; if only sounds exist they are still routed through the mixer,
which passes a single sound track through without a mixing filter but
amix-mixes two or more; if neither exists, mix_audio yields no track and
the final mux maps only the video stream. -/
theorem c6_audio_dispatch (createMusic : List String → String)
    (createSound : String → String) (m : List String) (s s1 s2 : String)
    (ss : List String) (hm : m ≠ []) :
    mix_audio createMusic createSound m [] = MixResult.passthroughMusic (createMusic m) ∧
    mix_audio createMusic createSound [] [s] = MixResult.singleReencode (createSound s) ∧
    mix_audio createMusic createSound [] (s1 :: s2 :: ss) =
      MixResult.amixTracks ((s1 :: s2 :: ss).map createSound) ∧
    mix_audio createMusic createSound [] [] = MixResult.noTrack ∧
    combine_all_maps false = ["0:v"] := by
  refine ⟨?_, rfl, rfl, rfl, rfl⟩
  simp [mix_audio, hm]

/-- Witness for C6 (amended) at concrete inputs. -/
theorem c6_witness :
    (["m1"] : List String) ≠ [] ∧
    (mix_audio (fun _ => "music") (fun s => s) ["m1"] [] =
        MixResult.passthroughMusic "music" ∧
      mix_audio (fun _ => "music") (fun s => s) [] ["a"] = MixResult.singleReencode "a" ∧
      mix_audio (fun _ => "music") (fun s => s) [] ["a", "b"] =
        MixResult.amixTracks (["a", "b"].map (fun s => s)) ∧
      mix_audio (fun _ => "music") (fun s => s) [] [] = MixResult.noTrack ∧
      combine_all_maps false = ["0:v"]) := by
  refine ⟨by decide, ?_⟩
  have h := c6_audio_dispatch (fun _ => "music") (fun s => s) ["m1"] "a" "a" "b" []
    (by decide)
  exact h

/-! ### Integrity filtering, ordering and validation

Embedding of validate_file_integrity (src/validator.py, lines 139 to 159),
of the front of VideoProcessor.process_videos (src/video_processor.py,
lines 36 to 64: integrity filter, fatal error on zero survivors, ordering
and per-clip normalization), and of the configuration value checks of
validate_inputs (src/validator.py, lines 17 to 58).  A source file is
modelled by an abstract path key, whether it exists on disk, and its byte
size; the only transcoding engine invocations of this stage are the
per-clip normalizations, recorded as EngineCall values. -/

structure SrcFile where
  path : ℕ
  onDisk : Bool
  size : ℕ
deriving DecidableEq

/-- Embedding of validate_file_integrity (validator.py lines 139 to 159):
a file is valid when it exists and has non-zero size. -/
def validate_file_integrity (f : SrcFile) : Bool :=
  if f.onDisk = false then false
  else if f.size = 0 then false
  else true

inductive EngineCall where
  | normalize (path : ℕ)
deriving DecidableEq

/-- Ordering relation of Python sorted(valid_videos) on the abstract path
keys (video_processor.py line 52). -/
def byPath (a b : SrcFile) : Prop := a.path ≤ b.path

instance : DecidableRel byPath := fun a b => Nat.decLe a.path b.path

instance : IsTotal SrcFile byPath := ⟨fun a b => Nat.le_total a.path b.path⟩

instance : IsTrans SrcFile byPath := ⟨fun _ _ _ => Nat.le_trans⟩

/-- Embedding of VideoProcessor.process_videos lines 36 to 64: filter out
files failing integrity validation; raise a fatal error when none
survive (before any engine invocation); otherwise shuffle the survivors
when music_shuffle is set, else sort them by path, and normalize each
ordered clip (the engine invocations of this stage).  Python
random.shuffle is modelled by the explicit permutation parameter
`shuffle`. -/
def process_videos_front (files : List SrcFile) (musicShuffle : Bool)
    (shuffle : List SrcFile → List SrcFile) :
    List EngineCall × Except String (List SrcFile) :=
  let validVideos := files.filter validate_file_integrity
  if validVideos = [] then ([], Except.error "No valid video files found")
  else
    let ordered :=
      if musicShuffle then shuffle validVideos
      else List.insertionSort byPath validVideos
    (ordered.map (fun f => EngineCall.normalize f.path), Except.ok ordered)

/-- Claim C7: when zero video files survive integrity filtering the video
stage fails fatally before any transcoding-engine invocation is
attempted; when at least one file survives, the invalid files are
dropped and processing proceeds (no abort). -/
theorem c7_integrity_gate (files : List SrcFile) (ms : Bool)
    (shuffle : List SrcFile → List SrcFile) :
    ((∀ f ∈ files, validate_file_integrity f = false) →
      process_videos_front files ms shuffle =
        ([], Except.error "No valid video files found")) ∧
    ((∃ f ∈ files, validate_file_integrity f = true) →
      ∃ sel, process_videos_front files ms shuffle =
        (sel.map (fun f => EngineCall.normalize f.path), Except.ok sel)) := by
  constructor
  · intro h
    have hnil : files.filter validate_file_integrity = [] := by
      rw [List.filter_eq_nil_iff]
      intro a ha
      simp [h a ha]
    simp [process_videos_front, hnil]
  · rintro ⟨f, hf, hv⟩
    have hmem : f ∈ files.filter validate_file_integrity :=
      List.mem_filter.mpr ⟨hf, hv⟩
    have hne : files.filter validate_file_integrity ≠ [] :=
      fun hcon => by simp [hcon] at hmem
    refine ⟨if ms then shuffle (files.filter validate_file_integrity)
      else List.insertionSort byPath (files.filter validate_file_integrity), ?_⟩
    simp [process_videos_front, hne]

/-- Witness for C7: a lone zero-byte file is fatal; with one additional
valid file the stage proceeds. -/
theorem c7_witness :
    ((∀ f ∈ [SrcFile.mk 0 true 0], validate_file_integrity f = false) ∧
      process_videos_front [SrcFile.mk 0 true 0] false id =
        ([], Except.error "No valid video files found")) ∧
    ((∃ f ∈ [SrcFile.mk 0 true 0, SrcFile.mk 1 true 7],
        validate_file_integrity f = true) ∧
      ∃ sel, process_videos_front [SrcFile.mk 0 true 0, SrcFile.mk 1 true 7] false id =
        (sel.map (fun f => EngineCall.normalize f.path), Except.ok sel)) :=
  ⟨⟨by decide, (c7_integrity_gate [SrcFile.mk 0 true 0] false id).1 (by decide)⟩,
    ⟨⟨SrcFile.mk 1 true 7, by decide, by decide⟩,
      (c7_integrity_gate [SrcFile.mk 0 true 0, SrcFile.mk 1 true 7] false id).2
        ⟨SrcFile.mk 1 true 7, by decide, by decide⟩⟩⟩

/-- Claim C9: clip ordering is gated by the music shuffle flag; whenever
music_shuffle is false the surviving clips are arranged in deterministic
sorted path order, independent of the random source. -/
theorem c9_sorted_without_shuffle (files : List SrcFile)
    (shuffle shuffle2 : List SrcFile → List SrcFile) :
    process_videos_front files false shuffle = process_videos_front files false shuffle2 ∧
    (∀ calls sel, process_videos_front files false shuffle = (calls, Except.ok sel) →
      sel.Pairwise byPath ∧ sel.Perm (files.filter validate_file_integrity)) := by
  refine ⟨rfl, ?_⟩
  intro calls sel h
  by_cases hv : files.filter validate_file_integrity = []
  · simp [process_videos_front, hv] at h
  · simp only [process_videos_front, if_neg hv, Bool.false_eq_true, if_false,
      Prod.mk.injEq] at h
    have hsel : sel = List.insertionSort byPath (files.filter validate_file_integrity) := by
      have h2 := h.2
      exact (Except.ok.inj h2).symm
    subst hsel
    exact ⟨List.sorted_insertionSort byPath _, List.perm_insertionSort byPath _⟩

/-- Witness for C9 at a concrete out-of-order file list. -/
theorem c9_witness :
    (process_videos_front [SrcFile.mk 2 true 1, SrcFile.mk 1 true 1] false id =
      ([EngineCall.normalize 1, EngineCall.normalize 2],
        Except.ok [SrcFile.mk 1 true 1, SrcFile.mk 2 true 1])) ∧
    ([SrcFile.mk 1 true 1, SrcFile.mk 2 true 1].Pairwise byPath ∧
      [SrcFile.mk 1 true 1, SrcFile.mk 2 true 1].Perm
        ([SrcFile.mk 2 true 1, SrcFile.mk 1 true 1].filter validate_file_integrity)) :=
  ⟨rfl,
    (c9_sorted_without_shuffle [SrcFile.mk 2 true 1, SrcFile.mk 1 true 1] id id).2
      [EngineCall.normalize 1, EngineCall.normalize 2]
      [SrcFile.mk 1 true 1, SrcFile.mk 2 true 1] rfl⟩

/-! ### Configuration value validation -/

structure ConfigValues where
  duration : ℚ
  quotesDuration : ℚ
  quotesMinBetween : ℚ
  quotesMaxBetween : ℚ
  musicVolume : ℚ
  soundsVolume : ℚ
  fps : ℤ
  width : ℤ
  height : ℤ

/-- Embedding of the configuration value checks of validate_inputs
(validator.py lines 28 to 58), in source order; the directory structure
checks that follow (line 61) concern the filesystem, not configuration
values, and are outside this definition. -/
def validate_inputs_values (c : ConfigValues) : Except String Unit :=
  if c.duration ≤ 0 then Except.error "Duration must be positive"
  else if c.quotesDuration ≤ 0 then Except.error "Quote duration must be positive"
  else if c.quotesMinBetween < 0 then Except.error "Quotes min between must be non-negative"
  else if c.quotesMaxBetween < c.quotesMinBetween then
    Except.error "Quotes max between must be at least quotes min between"
  else if ¬ (0 ≤ c.musicVolume ∧ c.musicVolume ≤ 1) then
    Except.error "Music volume must be between 0.0 and 1.0"
  else if ¬ (0 ≤ c.soundsVolume ∧ c.soundsVolume ≤ 1) then
    Except.error "Sounds volume must be between 0.0 and 1.0"
  else if c.fps ≤ 0 then Except.error "FPS must be positive"
  else if c.width ≤ 0 ∨ c.height ≤ 0 then
    Except.error "Resolution must have positive dimensions"
  else Except.ok ()

/-- Claim C8: the configuration value validation succeeds exactly when
every configured value satisfies its constraint (positive durations,
non-negative minimum interval, maximum at least minimum, volumes inside
the unit interval, positive fps and positive resolution dimensions), and
it always either succeeds or raises an error. -/
theorem c8_validation_iff (c : ConfigValues) :
    (validate_inputs_values c = Except.ok () ↔
      (0 < c.duration ∧ 0 < c.quotesDuration ∧ 0 ≤ c.quotesMinBetween ∧
        c.quotesMinBetween ≤ c.quotesMaxBetween ∧
        0 ≤ c.musicVolume ∧ c.musicVolume ≤ 1 ∧
        0 ≤ c.soundsVolume ∧ c.soundsVolume ≤ 1 ∧
        0 < c.fps ∧ 0 < c.width ∧ 0 < c.height)) ∧
    (validate_inputs_values c = Except.ok () ∨
      ∃ msg, validate_inputs_values c = Except.error msg) := by
  constructor
  · constructor
    · intro h
      unfold validate_inputs_values at h
      split_ifs at h with h1 h2 h3 h4 h5 h6 h7 h8
      push_neg at h8
      exact ⟨not_le.mp h1, not_le.mp h2, not_lt.mp h3, not_lt.mp h4,
        h5.1, h5.2, h6.1, h6.2, not_le.mp h7, h8.1, h8.2⟩
    · rintro ⟨g1, g2, g3, g4, g5a, g5b, g6a, g6b, g7, g8, g9⟩
      rw [validate_inputs_values, if_neg (not_le.mpr g1), if_neg (not_le.mpr g2),
        if_neg (not_lt.mpr g3), if_neg (not_lt.mpr g4),
        if_neg (not_not_intro ⟨g5a, g5b⟩), if_neg (not_not_intro ⟨g6a, g6b⟩),
        if_neg (not_le.mpr g7), if_neg (by push_neg; exact ⟨g8, g9⟩)]
  · cases hval : validate_inputs_values c with
    | ok u =>
      cases u
      exact Or.inl rfl
    | error msg => exact Or.inr ⟨msg, rfl⟩

/-! ### Quote parsing

Embedding of QuoteRenderer._parse_quotes_all (src/quote_renderer.py,
lines 80 to 130) and of the per-file part of QuoteRenderer._load_quotes
(lines 52 to 70).  File contents are modelled as character lists; Python
str.strip is modelled by stripping whitespace characters from both
ends. -/

/-- Python str.strip on a character list: drop whitespace from both
ends. -/
def stripChars (cs : List Char) : List Char :=
  ((cs.dropWhile Char.isWhitespace).reverse.dropWhile Char.isWhitespace).reverse

/-- Embedding of the character scanner of _parse_quotes_all (lines 93 to
130): a double quote toggles the in-quote state and, when closing, the
collected text is stripped and appended only if non-empty; a backslash
immediately followed by a double quote is consumed as an escaped literal
quote character (kept only inside a quote); any other character is
collected when inside a quote.  An unclosed trailing quote contributes
nothing (the source only logs a warning). -/
def parseLoop : List Char → Bool → List Char → List (List Char) → List (List Char)
  | [], _, _, acc => acc
  | '"' :: rest, true, cur, acc =>
      parseLoop rest false []
        (acc ++ (if stripChars cur = [] then [] else [stripChars cur]))
  | '"' :: rest, false, cur, acc => parseLoop rest true cur acc
  | '\\' :: '"' :: rest, inQ, cur, acc =>
      parseLoop rest inQ (if inQ then cur ++ ['"'] else cur) acc
  | c :: rest, inQ, cur, acc =>
      parseLoop rest inQ (if inQ then cur ++ [c] else cur) acc

/-- Embedding of _parse_quotes_all (line 80): scan the content starting
outside a quote with empty collected text and no parsed quotes. -/
def parse_quotes_all (content : List Char) : List (List Char) :=
  parseLoop content false [] []

/-- Embedding of the per-file fallback of _load_quotes (lines 60 to 70):
if parsing found quotes they are used, otherwise the entire (already
stripped) content becomes a single quote. -/
def load_quotes_from_content (content : List Char) : List (List Char) :=
  if parse_quotes_all content = [] then [content] else parse_quotes_all content

/-- Embedding of the per-file handling of _load_quotes (lines 52 to 70):
the raw content is stripped; an empty result is skipped (contributing no
quotes), otherwise the fallback logic above applies. -/
def load_quote_file_quotes (raw : List Char) : List (List Char) :=
  if stripChars raw = [] then [] else load_quotes_from_content (stripChars raw)

/-- Formalization of the claim wording: the maximal substrings enclosed in
unescaped double quotes, with an escaped double quote kept as a literal
quote character, taken verbatim (no stripping, no dropping).  This is the
same scanner as parseLoop except that each enclosed substring is kept
exactly as collected. -/
def claimScan : List Char → Bool → List Char → List (List Char)
  | [], _, _ => []
  | '"' :: rest, true, cur => cur :: claimScan rest false []
  | '"' :: rest, false, cur => claimScan rest true cur
  | '\\' :: '"' :: rest, inQ, cur =>
      claimScan rest inQ (if inQ then cur ++ ['"'] else cur)
  | c :: rest, inQ, cur =>
      claimScan rest inQ (if inQ then cur ++ [c] else cur)

/-- Maximal double-quoted substrings of a content, per the claim
wording. -/
def claimQuotedSubstrings (content : List Char) : List (List Char) :=
  claimScan content false []

/-- Post-processing that the source applies to each enclosed substring:
strip it and drop it when nothing remains. -/
def postStrip (l : List (List Char)) : List (List Char) :=
  (l.map stripChars).filter (· ≠ [])

theorem parseLoop_eq_claimScan (cs : List Char) (inQ : Bool) (cur : List Char)
    (acc : List (List Char)) :
    parseLoop cs inQ cur acc = acc ++ postStrip (claimScan cs inQ cur) := by
  induction cs, inQ, cur using claimScan.induct generalizing acc with
  | case2 rest cur ih =>
    by_cases hs : stripChars cur = [] <;>
      simp_all [parseLoop, claimScan, postStrip, List.filter_cons]
  | _ => simp_all [parseLoop, claimScan, postStrip]

/-- Counterexample to claim C10 as stated: the file content consisting of
a double-quoted single space contains a double-quoted substring, yet the
loader does not extract it; the whitespace-only quote is dropped, the
parse comes back empty, and the fallback turns the entire content,
quote characters included, into the single loaded quote. -/
theorem c10_counterexample :
    claimQuotedSubstrings (stripChars ['"', ' ', '"']) = [[' ']] ∧
    load_quote_file_quotes ['"', ' ', '"'] = [['"', ' ', '"']] ∧
    load_quote_file_quotes ['"', ' ', '"'] ≠
      claimQuotedSubstrings (stripChars ['"', ' ', '"']) :=
  ⟨rfl, rfl, by decide⟩

/-- Claim C10, amended: quote loading extracts, from a quote file, every
maximal substring enclosed in unescaped double quotes, stripped of
surrounding whitespace and dropped when nothing remains after stripping;
when no quoted substring survives this post-processing (in particular
when the content contains no double-quoted substring at all) the entire
stripped file content becomes exactly one quote; hence a file whose
stripped content is non-empty never contributes zero quotes. -/
theorem c10_quote_loading (raw : List Char) :
    (load_quote_file_quotes raw =
      if stripChars raw = [] then []
      else if postStrip (claimQuotedSubstrings (stripChars raw)) = []
        then [stripChars raw]
        else postStrip (claimQuotedSubstrings (stripChars raw))) ∧
    (stripChars raw ≠ [] → load_quote_file_quotes raw ≠ []) := by
  have key : parse_quotes_all (stripChars raw) =
      postStrip (claimQuotedSubstrings (stripChars raw)) := by
    simpa using parseLoop_eq_claimScan (stripChars raw) false [] []
  constructor
  · by_cases h0 : stripChars raw = []
    · simp [load_quote_file_quotes, h0]
    · simp only [load_quote_file_quotes, load_quotes_from_content, if_neg h0, key]
  · intro h0
    simp only [load_quote_file_quotes, if_neg h0, load_quotes_from_content]
    by_cases hp : parse_quotes_all (stripChars raw) = [] <;> simp [hp]

/-- Witness for C10 (amended): a plain two-character file with no quote
characters loads as one quote. -/
theorem c10_witness :
    stripChars ['h', 'i'] ≠ [] ∧ load_quote_file_quotes ['h', 'i'] ≠ [] :=
  ⟨by decide, (c10_quote_loading ['h', 'i']).2 (by decide)⟩

end YtBuilder
